import Mathlib

/-!
# Verification of the mlx fast-operator dispatch core (`mlx/fast.cpp`)

Shallow embedding of the operators defined in `mlx/fast.cpp` (namespace
`mlx::core::fast`): rms_norm, layer_norm (gradient), rope,
scaled_dot_product_attention, the affine quantization codec, the generic
`Custom` vjp selection, and the custom-kernel adapter.

Modelling conventions:
* Tensor elements are exact rationals `ℚ`; floating-point rounding is not
  modelled (the spec states properties "within floating tolerance", which we
  settle in exact arithmetic).
* Transcendental library kernels (`exp`, `cos`, `sin`, `rsqrt`, dtype casts)
  live in the array library outside the given sources; they are taken as
  function parameters, constrained only by the algebraic facts a claim needs
  (e.g. `cos² + sin² = 1`).
* Tensors with rank handled only through reshapes are flattened the same way
  the source flattens them (row-major), and element-wise translations of
  slice/concatenate/broadcast chains are spelled out index-wise.
* Throwing `std::invalid_argument` is modelled by `Except.error`.
-/

namespace MlxFast

/-- Execution device of the resolved stream, as consulted by the dispatch
policy (`s.device == Device::gpu`). -/
inductive Device where
  | cpu
  | gpu
  deriving DecidableEq, Repr

/-- Element dtypes relevant to the fast operators. -/
inductive Dtype where
  | boolDt
  | uint32
  | int32
  | float16
  | bfloat16
  | float32
  deriving DecidableEq, Repr

/-- `issubdtype(t, floating)` for the dtypes modelled here. -/
def Dtype.isFloating : Dtype → Bool
  | .float16 | .bfloat16 | .float32 => true
  | _ => false

/-- Modelled from the spec: `result_type`, the common promoted dtype of two
inputs ("compute the output dtype as the common floating type of `x` and
`weight`").  The implementation lives in the array library, outside the given
sources; only `isFloating` and `≠ bfloat16` of the result are ever used by
the claims. -/
def promote (a b : Dtype) : Dtype :=
  if a = b then a
  else
    match a, b with
    | .float32, _ | _, .float32 => .float32
    | .float16, .bfloat16 | .bfloat16, .float16 => .float32
    | .float16, _ | _, .float16 => .float16
    | .bfloat16, _ | _, .bfloat16 => .bfloat16
    | .int32, _ | _, .int32 => .int32
    | _, _ => .uint32

/-- Input bundle of `rms_norm`: rank and dtype metadata for validation plus
the (row-flattened) data of `x` and the 1-D `weight`. -/
structure NormIn where
  xndim : ℕ
  wndim : ℕ
  xdt : Dtype
  wdt : Dtype
  rows : ℕ
  cols : ℕ
  x : ℕ → ℕ → ℚ
  w : ℕ → ℚ

/-- `mean(square(x), -1, keepdims=true)` after the upcast of `x` to float32,
for row `r`.  `castF` models `astype` on element values. -/
def meanSq (castF : Dtype → ℚ → ℚ) (inp : NormIn) (r : ℕ) : ℚ :=
  (∑ c ∈ Finset.range inp.cols, (castF .float32 (inp.x r c)) ^ 2) / inp.cols

/-- `rms_norm` (`mlx/fast.cpp:53-99`): validation, then the fallback
`multiply(inputs[1], astype(multiply(x32, rsqrt(mean(square(x32)) + eps)),
out_type))` with `x32 = astype(x, float32)`.  The GPU branch constructs an
`RMSNorm` node whose defined semantics is this same fallback (spec §4.1), so
the model returns the fallback value.  `rsq` models the `rsqrt` kernel. -/
def rmsNorm (castF : Dtype → ℚ → ℚ) (rsq : ℚ → ℚ) (eps : ℚ) (inp : NormIn) :
    Except String (ℕ → ℕ → ℚ) :=
  if inp.xndim = 0 then
    .error "[rms_norm] Input must have at least 1 dimension but got input with 0 dimensions."
  else if inp.wndim ≠ 1 then
    .error "[rms_norm] weight must have 1 dimension."
  else if (promote inp.xdt inp.wdt).isFloating = false then
    .error "[rms_norm] Received unsupported type."
  else
    .ok fun r c =>
      inp.w c *
        castF (promote inp.xdt inp.wdt)
          (castF .float32 (inp.x r c) * rsq (meanSq castF inp r + eps))

/-- The spec's formula for rms_norm, written with a division by `sqrt` as in
the spec text: `weight * cast(x32 / sqrt(mean(x32^2, last_axis) + eps),
out_type)`, the cast to the output dtype applied before the multiplication by
`weight`. -/
def rmsNormSpec (castF : Dtype → ℚ → ℚ) (sqf : ℚ → ℚ) (eps : ℚ) (inp : NormIn) :
    ℕ → ℕ → ℚ := fun r c =>
  inp.w c *
    castF (promote inp.xdt inp.wdt)
      (castF .float32 (inp.x r c) / sqf (meanSq castF inp r + eps))

/-! ## rope (`mlx/fast.cpp:325-426`)

The fallback first reshapes the rank-≥3 input to `{-1, S, D}` (a bijection on
flat indices) and reshapes the result back, so the model works on the 3-D
view directly, as a total index function `b s d ↦ ℚ`.

The angle table of the source is
`theta[s, i] = ((offset + s) * scale) * freqs[i]` with
`freqs[i] = exp(-i * log(base) / half_dims)`; `exp`/`log` are library
kernels outside the given sources, so the table column `freq` and the
`cos`/`sin` kernels are taken as function parameters. -/

/-- `theta[s, i]`: position `(offset + s) * scale` times frequency `freq i`
(`mlx/fast.cpp:350-354`). -/
def ropeTheta (freq : ℕ → ℚ) (offset : ℤ) (scale : ℚ) (s i : ℕ) : ℚ :=
  ((offset : ℚ) + (s : ℚ)) * scale * freq i

/-- `apply_rope` (`mlx/fast.cpp:358-374`): rotate the pair `(a, b)` by the
cosine/sine `(c, sn)`; forward `(a*c - b*sn, a*sn + b*c)`, otherwise the
inverse `(b*sn + a*c, b*c - a*sn)`. -/
def ropeRot (forward : Bool) (a b c sn : ℚ) : ℚ × ℚ :=
  if forward then (a * c - b * sn, a * sn + b * c)
  else (b * sn + a * c, b * c - a * sn)

/-- The rope fallback (`mlx/fast.cpp:341-404`) on the 3-D view, element-wise.
* traditional: `x1`/`x2` are the stride-2 slices of the first `dims`
  features (`x[.., 2i]`, `x[.., 2i+1]`); the rotated pairs are re-interleaved
  (expand_dims + concatenate + reshape), and features at `d ≥ dims` pass
  through (`mlx/fast.cpp:376-390`);
* non-traditional: `x1 = x[.., 0:dims/2]`, `x2 = x[.., dims/2:dims]`; the two
  rotated halves are concatenated, then the features at `d ≥ dims` pass
  through (`mlx/fast.cpp:391-403`). -/
def rope (cosf sinf : ℚ → ℚ) (freq : ℕ → ℚ) (offset : ℤ) (scale : ℚ)
    (dims : ℕ) (traditional forward : Bool) (x : ℕ → ℕ → ℕ → ℚ) :
    ℕ → ℕ → ℕ → ℚ := fun b s d =>
  if traditional then
    if d < dims then
      let i := d / 2
      let p := ropeRot forward (x b s (2 * i)) (x b s (2 * i + 1))
        (cosf (ropeTheta freq offset scale s i)) (sinf (ropeTheta freq offset scale s i))
      if d % 2 = 0 then p.1 else p.2
    else x b s d
  else
    let half := dims / 2
    if d < half then
      (ropeRot forward (x b s d) (x b s (d + half))
        (cosf (ropeTheta freq offset scale s d)) (sinf (ropeTheta freq offset scale s d))).1
    else if d < dims then
      (ropeRot forward (x b s (d - half)) (x b s d)
        (cosf (ropeTheta freq offset scale s (d - half)))
        (sinf (ropeTheta freq offset scale s (d - half)))).2
    else x b s d

/-! ## scaled_dot_product_attention (`mlx/fast.cpp:462-605`) -/

/-- A tensor for the quantization entry points: shape list, dtype and flat
row-major data of element type `α` (`ℚ` for weights/scales/biases, `ℕ` for
packed uint32 words). -/
structure Tens (α : Type) where
  shape : List ℕ
  dt : Dtype
  data : ℕ → α

/-- Size of the last axis, `shape(-1)`. -/
def Tens.lastDim {α : Type} (t : Tens α) : ℕ := t.shape.getLastD 0

/-- The packing sum of `pack_and_quantize` (`mlx/fast.cpp:630-633`): the
`32/bits` consecutive quantized values of one word, weighted by the shifts
`2^(bits*i)` low-to-high.  Written as the equivalent right fold
`q₀ + 2^bits * (q₁ + 2^bits * (...))`. -/
def packBase (bits : ℕ) : List ℕ → ℕ
  | [] => 0
  | q :: qs => q + 2 ^ bits * packBase bits qs

/-- One packed 32-bit word; the sum is reduced in `uint32`, i.e. mod `2^32`
(vacuous for in-range fields, proved below). -/
def packWord (bits : ℕ) (qs : List ℕ) : ℕ := packBase bits qs % 2 ^ 32

/-- One shift-mask pair of the `affine_dequantize` fallback
(`mlx/fast.cpp:826-837`): `(w << (32 - (start + bits))) >> (32 - bits)` in
`uint32` arithmetic, with `start = bits * i`; the left shift reduces mod
`2^32` and the logical right shift is division. -/
def unpackField (bits word start : ℕ) : ℕ :=
  word * 2 ^ (32 - (start + bits)) % 2 ^ 32 / 2 ^ (32 - bits)

/-- The unpacking loop `for (start = 0; start < 32; start += bits)` of the
dequantize fallback: `⌈32/bits⌉ = 31/bits + 1` fields (for `bits ∣ 32` this
is exactly `32/bits`). -/
def unpackWord (bits word : ℕ) : List ℕ :=
  (List.range (31 / bits + 1)).map fun i => unpackField bits word (bits * i)

/-- `round` on element values: round half away from zero (`std::round`). -/
def rnd (x : ℚ) : ℤ := if x < 0 then -⌊-x + 1 / 2⌋ else ⌊x + 1 / 2⌋

/-- `clip(·, 0, n_bins)` on the rounded quantization level. -/
def clipq (z nbins : ℤ) : ℤ := max 0 (min z nbins)

/-- Group maximum `max(packed_w, -1)` over the `gs` elements starting at
flat index `base`. -/
def gmax (w : ℕ → ℚ) (base gs : ℕ) : ℚ :=
  (List.range gs).foldl (fun m j => max m (w (base + j))) (w base)

/-- Group minimum `min(packed_w, -1)`. -/
def gmin (w : ℕ → ℚ) (base gs : ℕ) : ℚ :=
  (List.range gs).foldl (fun m j => min m (w (base + j))) (w base)

/-- Per-group scale/bias estimation of the `affine_quantize` fallback
(`mlx/fast.cpp:686-701`): `mask = |w_min| > |w_max|`;
`scales = max((w_max - w_min)/n_bins, eps)` then `where(mask, scales,
-scales)`; `edge = where(mask, w_min, w_max)`; `q0 = round(edge/scales)`;
`scales = where(q0 ≠ 0, edge/q0, scales)`; `biases = where(q0 = 0, 0, edge)`.
`eps = 1e-7` is exact here (the cast of `array(1e-7, w.dtype())` to the
weight dtype is not modelled). -/
def quantParams (bits : ℕ) (w : ℕ → ℚ) (base gs : ℕ) : ℚ × ℚ :=
  let nbins : ℚ := 2 ^ bits - 1
  let eps : ℚ := 1 / 10 ^ 7
  let wmax := gmax w base gs
  let wmin := gmin w base gs
  let scale0 := max ((wmax - wmin) / nbins) eps
  let scale1 := if |wmin| > |wmax| then scale0 else -scale0
  let edge := if |wmin| > |wmax| then wmin else wmax
  let q0 := rnd (edge / scale1)
  (if q0 ≠ 0 then edge / (q0 : ℚ) else scale1, if q0 = 0 then 0 else edge)

/-- Quantization level of the element at flat index `idx` given its group's
scale and bias: `clip(round((w - bias)/scale), 0, 2^bits - 1)` cast to
unsigned (`mlx/fast.cpp:624-629`). -/
def qLevel (bits : ℕ) (scale bias wv : ℚ) : ℕ :=
  (clipq (rnd ((wv - bias) / scale)) (2 ^ bits - 1)).toNat

/-- The `affine_quantize(w, group_size, bits)` fallback
(`mlx/fast.cpp:680-709`): estimate per-group parameters, quantize, and pack
`32/bits` consecutive levels per uint32 word.  Returned as (packed words,
per-group scales, per-group biases) over flat indices. -/
def affineQuantizeFallback (w : Tens ℚ) (gs bits : ℕ) :
    (ℕ → ℕ) × (ℕ → ℚ) × (ℕ → ℚ) :=
  let el := 32 / bits
  let scaleOf : ℕ → ℚ := fun g => (quantParams bits w.data (g * gs) gs).1
  let biasOf : ℕ → ℚ := fun g => (quantParams bits w.data (g * gs) gs).2
  let q : ℕ → ℕ := fun idx =>
    qLevel bits (scaleOf (idx / gs)) (biasOf (idx / gs)) (w.data idx)
  (fun p => packWord bits ((List.range el).map fun t => q (p * el + t)),
    scaleOf, biasOf)

/-- `affine_quantize(w, group_size, bits)` (`mlx/fast.cpp:636-726`): the five
validation checks in source order, then the fallback (the GPU branch defers
the same fallback into an `AffineQuantize` node). -/
def affineQuantize (w : Tens ℚ) (gs bits : ℕ) :
    Except String ((ℕ → ℕ) × (ℕ → ℚ) × (ℕ → ℚ)) :=
  if ¬ (gs = 32 ∨ gs = 64 ∨ gs = 128) then
    .error "[quantize] The requested group size is not supported."
  else if ¬ (bits = 2 ∨ bits = 4 ∨ bits = 8) then
    .error "[quantize] The requested number of bits is not supported."
  else if w.shape.length < 2 then
    .error "[quantize] The matrix to be quantized must have at least 2 dimension."
  else if w.lastDim % gs ≠ 0 then
    .error "[quantize] The last dimension of the matrix needs to be divisible by the quantization group size."
  else if w.lastDim < 32 * (32 / bits) then
    .error "[quantize] The feature dimension is too small for quantization."
  else
    .ok (affineQuantizeFallback w gs bits)

/-- Modelled from the spec: one dimension pair of the array library's
broadcasting rule (the library lives outside the given sources).  Two sizes
are compatible iff they are equal or one of them is `1`; the broadcast size
is the larger one, and an incompatible pair raises eagerly when the
element-wise op is constructed. -/
def broadcastDim (a b : ℕ) : Option ℕ :=
  if a = b then some a
  else if a = 1 then some b
  else if b = 1 then some a
  else none

/-- Broadcasting on reversed (least-significant-first) shape lists: missing
leading dimensions are treated as present on the other side. -/
def broadcastRev : List ℕ → List ℕ → Option (List ℕ)
  | [], ys => some ys
  | xs, [] => some xs
  | x :: xs, y :: ys => do
    let d ← broadcastDim x y
    let rest ← broadcastRev xs ys
    pure (d :: rest)

/-- Modelled from the spec: the array library's broadcast of two shapes,
right-aligned (`none` models the eager shape error). -/
def broadcastShapes : List ℕ → List ℕ → Option (List ℕ) := fun a b =>
  (broadcastRev a.reverse b.reverse).map List.reverse

/-- The eager shape inference performed by the array ops that the
re-quantization fallback (`mlx/fast.cpp:738-750` and `pack_and_quantize`,
`mlx/fast.cpp:613-634`) constructs, in call order:
1. `reshape(w, {-1, w.shape(-1)/group_size, group_size})` — the `-1` is
   inferred, throwing unless the known product divides `w`'s element count;
2. `subtract(packed_w, expand_dims(biases, -1))` — eager broadcast;
3. `divide(..., expand_dims(scales, -1))` — eager broadcast
   (round/clip/astype preserve shapes and cannot throw);
4. `reshape(packed_w, {packed_w.shape(0), -1, 32/bits})` — inferred `-1`;
5. `multiply(packed_w, shifts)` with `shifts` of length `⌈32/bits⌉` — eager
   broadcast (then `sum(axis=2)` drops the last axis);
6. the final `reshape(packed_w, wshape)` with `wshape.back() = -1`.
Returns `false` exactly when one of these library ops throws. -/
def requantShapesOk (wshape sshape bshape : List ℕ) (gs bits : ℕ) : Bool :=
  let el := 32 / bits
  let nparts := 31 / bits + 1
  let numel := wshape.prod
  let lastd := wshape.getLastD 0
  let inner := lastd / gs * gs
  if inner = 0 ∨ numel % inner ≠ 0 then false
  else
    (broadcastShapes [numel / inner, lastd / gs, gs] (bshape ++ [1])).elim
      false fun s2 =>
    (broadcastShapes s2 (sshape ++ [1])).elim false fun s3 =>
    if s3.headD 0 * el = 0 ∨ s3.prod % (s3.headD 0 * el) ≠ 0 then false
    else
      (broadcastShapes [s3.headD 0, s3.prod / (s3.headD 0 * el), el]
          [nparts]).elim false fun s5 =>
      decide (wshape.dropLast.prod ≠ 0 ∧
        (s5.take 2).prod % wshape.dropLast.prod = 0)

/-- The re-quantization entry point `affine_quantize(w, scales, biases,
group_size, bits)` (`mlx/fast.cpp:728-762`).  The entry point itself
performs no validation whatsoever (compare `affine_dequantize`,
`mlx/fast.cpp:771-815`): it builds the fallback (reshape to groups,
quantize with the given per-group scales/biases, pack) and runs it.  On the
eager CPU path an error can still arise — only from the underlying ops'
shape inference, modelled by `requantShapesOk`; when every op accepts, the
call packs and returns (flat-index bookkeeping of the reshape chain, as
before). -/
def affineQuantizeGiven (w scales biases : Tens ℚ) (gs bits : ℕ) :
    Except String (ℕ → ℕ) :=
  let el := 32 / bits
  let q : ℕ → ℕ := fun idx =>
    qLevel bits (scales.data (idx / gs)) (biases.data (idx / gs)) (w.data idx)
  if requantShapesOk w.shape scales.shape biases.shape gs bits then
    .ok fun p => packWord bits ((List.range el).map fun t => q (p * el + t))
  else
    .error "eager shape inference in an underlying array op failed"

/-- A passed weight/bias parameter: 0-dimensional scalar (absent) or the
1-D vector (present). -/
inductive Param where
  | scalar (v : ℚ)
  | vec (n : ℕ) (data : ℕ → ℚ)

/-- `ndim()` of a parameter. -/
def Param.ndim : Param → ℕ
  | .scalar _ => 0
  | .vec _ _ => 1

/-- `zeros_like` of a parameter. -/
def Param.zerosLike : Param → Param
  | .scalar _ => .scalar 0
  | .vec n _ => .vec n fun _ => 0

/-- Value at column `c` under broadcasting (a scalar broadcasts along the
last axis). -/
def Param.val : Param → ℕ → ℚ
  | .scalar v, _ => v
  | .vec _ f, c => f c

/-- `x` and the cotangent `g` of the LayerNorm vjp, with the leading axes
flattened to rows (the `sum(..., all axes but last)` reductions of the
source then reduce over rows). -/
structure LNIn where
  rows : ℕ
  cols : ℕ
  x : ℕ → ℕ → ℚ
  g : ℕ → ℕ → ℚ

/-- The `LayerNorm::vjp` fallback (`mlx/fast.cpp:251-299`), element-wise:
`norm = 1/cols` (`number_of_elements(x, {-1}, true, ...)`), the one-pass
mean/variance from `sum(x)`/`sum(x²)`, then
* `dx = (wg - sumwg*norm)*n - x_c*(sum(wg*x_c)*norm)*n³`,
* `dw = sum(g * x_c * n, axes)` unless `w.ndim() == 0`, in which case
  `zeros_like(w)`,
* `db = sum(g, axes)` unless `b.ndim() == 0`, in which case the source
  pushes `zeros_like(w)` (`mlx/fast.cpp:293` — `w`, not `b`), translated
  verbatim. -/
def layerNormVjpFallback (rsq : ℚ → ℚ) (eps : ℚ) (inp : LNIn) (w b : Param) :
    (ℕ → ℕ → ℚ) × Param × Param :=
  let C := inp.cols
  let norm : ℚ := 1 / C
  let mu : ℕ → ℚ := fun r => (∑ c ∈ Finset.range C, inp.x r c) * norm
  let mu2 : ℕ → ℚ := fun r => (∑ c ∈ Finset.range C, inp.x r c ^ 2) * norm
  let varr : ℕ → ℚ := fun r => mu2 r - mu r ^ 2
  let n : ℕ → ℚ := fun r => rsq (varr r + eps)
  let xc : ℕ → ℕ → ℚ := fun r c => inp.x r c - mu r
  let wg : ℕ → ℕ → ℚ := fun r c => w.val c * inp.g r c
  let sumwg : ℕ → ℚ := fun r => (∑ c ∈ Finset.range C, wg r c) * norm
  let sumwgxc : ℕ → ℚ := fun r => (∑ c ∈ Finset.range C, wg r c * xc r c) * norm
  let dx : ℕ → ℕ → ℚ := fun r c =>
    (wg r c - sumwg r) * n r - xc r c * sumwgxc r * n r ^ 3
  let dw : Param :=
    if w.ndim = 0 then w.zerosLike
    else .vec C fun c => ∑ r ∈ Finset.range inp.rows, inp.g r c * (xc r c * n r)
  let db : Param :=
    if b.ndim = 0 then w.zerosLike
    else .vec C fun c => ∑ r ∈ Finset.range inp.rows, inp.g r c
  (dx, dw, db)

/-! ## Custom::vjp (`mlx/fast.cpp:13-27`)

`mlx::core::vjp(fallback_, primals, cotangents)` is the external autodiff
engine; its gradient list is taken as a given list `vjps`.  The selection
loop `for (i = 0, j = 0; i < vjps.size(); ++i) if (j < argnums.size() && i ==
argnums[j]) { push vjps[i]; j++ }` is embedded index-by-index. -/

/-- The selection loop of `Custom::vjp`, scanning gradient `i` against the
pointer `j` into `argnums`. -/
def vjpSelect {α : Type} : ℕ → List α → List ℕ → List α
  | _, [], _ => []
  | i, _ :: vs, [] => vjpSelect (i + 1) vs []
  | i, v :: vs, j :: js =>
    if i = j then v :: vjpSelect (i + 1) vs js
    else vjpSelect (i + 1) vs (j :: js)

/-- `Custom::vjp`: the gradients the node returns, given the engine's full
gradient list and the requested `argnums`. -/
def customVjp {α : Type} (vjps : List α) (argnums : List ℕ) : List α :=
  vjpSelect 0 vjps argnums

/-! ## custom_kernel (`mlx/fast.cpp:862-891`) -/

/-- Shape/dtype descriptor of a custom-kernel input or output array. -/
structure KernelArr where
  shape : List ℕ
  dt : Dtype

/-- `custom_kernel` (`mlx/fast.cpp:862-891`): on a GPU stream it returns the
declared outputs (one deferred `CustomKernel` array per named output shape,
with the caller-declared shape and dtype); on any other device the function
body ends without a `return` statement and without throwing — there is no
fallback branch — which is modelled as `none`. -/
def customKernel (inputs : List (String × KernelArr)) (kernelSource : String)
    (outShapes : List (String × List ℕ)) (outDtypes : String → Dtype)
    (grid threadgroup : ℕ × ℕ × ℕ) (ensureRowContiguous : Bool)
    (dev : Device) : Option (List (String × KernelArr)) :=
  if dev = Device.gpu then
    some (outShapes.map fun p => (p.1, ⟨p.2, outDtypes p.1⟩))
  else
    none

/-! ## Theorems -/

/-- C3: for every `x` with ≥1 dimension and 1-D `weight` whose common result
type is floating, `rms_norm(x, weight, eps)` equals
`weight * cast(x32 / sqrt(mean(x32², last_axis) + eps), out_type)` — the
upcast of `x` to float32, the reduction over the last axis, and the cast
back to the output dtype before the multiplication by `weight` — and inputs
violating the rank or dtype preconditions produce an invalid-argument
error.  `rsq`/`sqf` model the `rsqrt`/`sqrt` kernels, related pointwise. -/
theorem rms_norm_spec (castF : Dtype → ℚ → ℚ) (rsq sqf : ℚ → ℚ) (eps : ℚ)
    (inp : NormIn) (hrs : ∀ z, rsq z = 1 / sqf z) :
    (inp.xndim ≠ 0 → inp.wndim = 1 →
      (promote inp.xdt inp.wdt).isFloating = true →
      rmsNorm castF rsq eps inp = .ok (rmsNormSpec castF sqf eps inp)) ∧
    ((inp.xndim = 0 ∨ inp.wndim ≠ 1 ∨ (promote inp.xdt inp.wdt).isFloating = false) →
      ∃ msg, rmsNorm castF rsq eps inp = .error msg) := by
  constructor
  · intro h1 h2 h3
    unfold rmsNorm
    rw [if_neg h1, if_neg (by simp [h2]), if_neg (by simp [h3])]
    have : (fun r c =>
        inp.w c * castF (promote inp.xdt inp.wdt)
          (castF .float32 (inp.x r c) * rsq (meanSq castF inp r + eps))) =
        rmsNormSpec castF sqf eps inp := by
      funext r c
      rw [rmsNormSpec, hrs, mul_one_div]
    rw [this]
  · intro h
    unfold rmsNorm
    split_ifs with h1 h2 h3
    · exact ⟨_, rfl⟩
    · exact ⟨_, rfl⟩
    · exact ⟨_, rfl⟩
    · exact absurd h (by tauto)

/-- C3 witness: a concrete valid input. -/
theorem rms_norm_spec_app :
    rmsNorm (fun _ q => q) (fun _ => 1) 0
        ⟨1, 1, .float32, .float32, 1, 2, fun _ _ => 2, fun _ => 3⟩ =
      .ok (rmsNormSpec (fun _ q => q) (fun _ => 1) 0
        ⟨1, 1, .float32, .float32, 1, 2, fun _ _ => 2, fun _ => 3⟩) :=
  (rms_norm_spec _ _ _ _ _ (fun z => by norm_num)).1 (by decide) (by decide)
    (by decide)

/-- C7: `affine_quantize(w, group_size, bits)` raises an invalid-argument
error if and only if `group_size ∉ {32, 64, 128}`, or `bits ∉ {2, 4, 8}`, or
`w` has fewer than 2 dimensions, or the last axis is not divisible by
`group_size`, or the last axis is smaller than `32 * (32/bits)`; otherwise
it returns the packed/scale/bias triple. -/
theorem affine_quantize_error_iff (w : Tens ℚ) (gs bits : ℕ) :
    (∃ msg, affineQuantize w gs bits = .error msg) ↔
      (¬ (gs = 32 ∨ gs = 64 ∨ gs = 128) ∨ ¬ (bits = 2 ∨ bits = 4 ∨ bits = 8) ∨
        w.shape.length < 2 ∨ w.lastDim % gs ≠ 0 ∨
        w.lastDim < 32 * (32 / bits)) := by
  unfold affineQuantize
  split_ifs with h1 h2 h3 h4 h5
  · exact iff_of_true ⟨_, rfl⟩ (by tauto)
  · exact iff_of_true ⟨_, rfl⟩ (by tauto)
  · exact iff_of_true ⟨_, rfl⟩ (by tauto)
  · exact iff_of_false (by simp) (by tauto)
  · exact iff_of_true ⟨_, rfl⟩ (by tauto)
  · exact iff_of_true ⟨_, rfl⟩ (by tauto)

/-- C4 counterexample: `w` of shape `[1, 64]` with `group_size = 32` derives
2 groups per row, yet `scales`/`biases` of shape `[1, 1]` (1 group)
broadcast silently against the grouped view: the re-quantization entry
point packs without raising. -/
theorem affine_quantize_given_cex :
    (⟨[1, 64], .float32, fun _ => 0⟩ : Tens ℚ).lastDim / 32 = 2 ∧
    (⟨[1, 1], .float32, fun _ => 1⟩ : Tens ℚ).lastDim = 1 ∧
    ∃ packed, affineQuantizeGiven ⟨[1, 64], .float32, fun _ => 0⟩
        ⟨[1, 1], .float32, fun _ => 1⟩ ⟨[1, 1], .float32, fun _ => 1⟩ 32 4 =
      .ok packed := by
  refine ⟨rfl, rfl, ?_⟩
  simp only [affineQuantizeGiven]
  rw [if_pos (by decide)]
  exact ⟨_, rfl⟩

/-- Broadcasting a trailing-`1` rank-3 shape whose first two sizes each
either match or are `1` leaves the left shape unchanged. -/
theorem broadcastShapes_pair (a b c r m : ℕ) (hr : r = 1 ∨ r = a)
    (hm : m = 1 ∨ m = b) :
    broadcastShapes [a, b, c] [r, m, 1] = some [a, b, c] := by
  have hdim : ∀ u v : ℕ, v = 1 ∨ v = u → broadcastDim u v = some u := by
    intro u v hv
    rcases hv with rfl | rfl
    · unfold broadcastDim
      split_ifs <;> simp_all
    · simp [broadcastDim]
  simp [broadcastShapes, broadcastRev, hdim a r hr, hdim b m hm,
    hdim c 1 (Or.inl rfl)]

/-- Broadcasting a length-1 shape equal to the last axis leaves a rank-3
shape unchanged. -/
theorem broadcastShapes_lastAxis (a b c : ℕ) :
    broadcastShapes [a, b, c] [c] = some [a, b, c] := by
  simp [broadcastShapes, broadcastRev, broadcastDim]

/-- The product of a nonempty shape splits off its last axis. -/
theorem prod_dropLast_getLastD (l : List ℕ) (h : l ≠ []) :
    l.prod = l.dropLast.prod * l.getLastD 0 := by
  induction l with
  | nil => exact absurd rfl h
  | cons a l ih =>
    cases l with
    | nil => simp
    | cons b t =>
      have h1 : (a :: b :: t).getLastD 0 = (b :: t).getLastD 0 := by
        simp [List.getLastD_cons]
      rw [List.prod_cons, ih (by simp), List.dropLast_cons₂, List.prod_cons,
        h1]
      ring

/-- In the regime the claim quantifies over — positive dims, whitelisted
`group_size`/`bits`, last axis divisible by `group_size` — every op of the
re-quantization fallback accepts whenever each `scales`/`biases` axis is
either `1` or matches the grouped view, including the group-count-mismatch
case `m = 1` against several derived groups. -/
theorem requantShapesOk_of_broadcastable (wshape : List ℕ) (gs bits : ℕ)
    (r m r' m' : ℕ) (hsh : wshape ≠ []) (hposd : ∀ d ∈ wshape, 0 < d)
    (hgs : gs = 32 ∨ gs = 64 ∨ gs = 128)
    (hbits : bits = 2 ∨ bits = 4 ∨ bits = 8)
    (hdvd : wshape.getLastD 0 % gs = 0)
    (hr : r = 1 ∨ r = wshape.dropLast.prod)
    (hm : m = 1 ∨ m = wshape.getLastD 0 / gs)
    (hr' : r' = 1 ∨ r' = wshape.dropLast.prod)
    (hm' : m' = 1 ∨ m' = wshape.getLastD 0 / gs) :
    requantShapesOk wshape [r, m] [r', m'] gs bits = true := by
  have hL : 0 < wshape.getLastD 0 := by
    have hmem : wshape.getLastD 0 ∈ wshape := by
      rw [List.getLastD_eq_getLast?, List.getLast?_eq_getLast wshape hsh,
        Option.getD_some]
      exact List.getLast_mem hsh
    exact hposd _ hmem
  have hN : 0 < wshape.dropLast.prod :=
    List.prod_pos fun d hd => hposd d (List.dropLast_subset wshape hd)
  have hnumel : wshape.prod = wshape.dropLast.prod * wshape.getLastD 0 :=
    prod_dropLast_getLastD wshape hsh
  have hfacts : wshape.getLastD 0 % (32 / bits) = 0 ∧
      31 / bits + 1 = 32 / bits ∧ 0 < 32 / bits ∧ 0 < gs := by
    rcases hgs with rfl | rfl | rfl <;> rcases hbits with rfl | rfl | rfl <;>
      exact ⟨by omega, by norm_num, by norm_num, by norm_num⟩
  obtain ⟨hLel, hnp, hel, hgs0⟩ := hfacts
  simp only [requantShapesOk]
  set N := wshape.dropLast.prod with hNdef
  set L := wshape.getLastD 0 with hLdef
  set el := 32 / bits with heldef
  have hinner : L / gs * gs = L := Nat.div_mul_cancel (Nat.dvd_of_mod_eq_zero hdvd)
  rw [hnumel, hinner, hnp]
  rw [if_neg (by push_neg; exact ⟨by omega, by rw [Nat.mul_mod_left]⟩)]
  rw [Nat.mul_div_cancel _ hL]
  rw [show ([r', m'] ++ [1] : List ℕ) = [r', m', 1] from rfl,
    broadcastShapes_pair N (L / gs) gs r' m' hr' hm', Option.elim_some]
  rw [show ([r, m] ++ [1] : List ℕ) = [r, m, 1] from rfl,
    broadcastShapes_pair N (L / gs) gs r m hr hm, Option.elim_some]
  have hhead : ([N, L / gs, gs] : List ℕ).headD 0 = N := rfl
  have hprod : ([N, L / gs, gs] : List ℕ).prod = N * L := by
    rw [show ([N, L / gs, gs] : List ℕ).prod = N * (L / gs * (gs * 1)) from rfl,
      Nat.mul_one, hinner]
  rw [hhead, hprod]
  have hNel : N * el ≠ 0 := Nat.mul_ne_zero (by omega) (by omega)
  have hmod2 : N * L % (N * el) = 0 := by
    rw [Nat.mul_mod_mul_left, hLel, Nat.mul_zero]
  rw [if_neg (by push_neg; exact ⟨hNel, hmod2⟩)]
  rw [Nat.mul_div_mul_left _ _ (by omega : 0 < N),
    broadcastShapes_lastAxis N (L / el) el, Option.elim_some]
  simp only [List.take, List.prod_cons, List.prod_nil, decide_eq_true_eq]
  refine ⟨by omega, ?_⟩
  rw [Nat.mul_one, Nat.mul_mod_right]

/-- C4 amended: the re-quantization entry point performs no shape/dtype
validation of its own before packing — in particular the consistency of the
`scales`/`biases` group count with the group count derived from `w`,
`group_size` and `bits` is never checked.  A mismatch surfaces only if one
of the underlying array ops' eager shape inferences fails; whenever each
`scales`/`biases` axis is `1` or matches the grouped view — including a
single group supplied against several derived groups — every op accepts
and the call packs and returns without raising. -/
theorem affine_quantize_given_unchecked (w scales biases : Tens ℚ)
    (gs bits : ℕ) (r m r' m' : ℕ)
    (hsh : w.shape ≠ []) (hposd : ∀ d ∈ w.shape, 0 < d)
    (hgs : gs = 32 ∨ gs = 64 ∨ gs = 128)
    (hbits : bits = 2 ∨ bits = 4 ∨ bits = 8)
    (hdvd : w.lastDim % gs = 0)
    (hss : scales.shape = [r, m]) (hbs : biases.shape = [r', m'])
    (hr : r = 1 ∨ r = w.shape.dropLast.prod)
    (hm : m = 1 ∨ m = w.lastDim / gs)
    (hr' : r' = 1 ∨ r' = w.shape.dropLast.prod)
    (hm' : m' = 1 ∨ m' = w.lastDim / gs) :
    ∃ packed, affineQuantizeGiven w scales biases gs bits = .ok packed := by
  simp only [affineQuantizeGiven]
  rw [hss, hbs, if_pos (requantShapesOk_of_broadcastable w.shape gs bits
    r m r' m' hsh hposd hgs hbits hdvd hr hm hr' hm')]
  exact ⟨_, rfl⟩

/-- C4 witness for the amended claim: the mismatched single-group
`scales`/`biases` of the counterexample input satisfy the broadcast regime,
so the theorem applies there. -/
theorem affine_quantize_given_unchecked_app :
    ∃ packed, affineQuantizeGiven ⟨[1, 64], .float32, fun _ => 0⟩
        ⟨[1, 1], .float32, fun _ => 1⟩ ⟨[1, 1], .float32, fun _ => 1⟩ 32 4 =
      .ok packed :=
  affine_quantize_given_unchecked ⟨[1, 64], .float32, fun _ => 0⟩
    ⟨[1, 1], .float32, fun _ => 1⟩ ⟨[1, 1], .float32, fun _ => 1⟩ 32 4
    1 1 1 1 (by decide) (by decide) (by norm_num) (by norm_num) (by decide)
    rfl rfl (by norm_num) (by norm_num) (by norm_num) (by norm_num)

/-- C6 (code bug): in the LayerNorm gradient fallback, when the bias is
absent (a 0-dimensional primal) but the weight is present (1-D), the
returned bias gradient is `zeros_like(w)` — rank 1, the weight's shape —
not a zero of the absent bias's own 0-dimensional shape, contradicting the
output shape `primals[2].shape()` that `LayerNorm::vjp` itself declares. -/
theorem layer_norm_vjp_bias_grad_bug :
    (Param.scalar 0).ndim = 0 ∧
    ((layerNormVjpFallback (fun _ => 1) 0 ⟨1, 2, fun _ _ => 1, fun _ _ => 1⟩
        (Param.vec 2 fun _ => 1) (Param.scalar 0)).2.2).ndim = 1 :=
  ⟨rfl, rfl⟩

/-- C10: `custom_kernel` produces a defined result exactly when the resolved
stream's device is GPU; on any other device the body ends without returning
a value and without raising (no fallback branch exists). -/
theorem custom_kernel_gpu_only (inputs : List (String × KernelArr))
    (kernelSource : String) (outShapes : List (String × List ℕ))
    (outDtypes : String → Dtype) (grid threadgroup : ℕ × ℕ × ℕ)
    (erc : Bool) (dev : Device) :
    customKernel inputs kernelSource outShapes outDtypes grid threadgroup
        erc dev = none ↔ dev ≠ Device.gpu := by
  unfold customKernel
  by_cases h : dev = Device.gpu <;> simp [h]

/-! ### The packed layout is a bijection on quantization levels (C5) -/

/-- In-range fields pack to a value below `2^(bits * count)`. -/
theorem packBase_lt (bits : ℕ) (qs : List ℕ) (hq : ∀ q ∈ qs, q < 2 ^ bits) :
    packBase bits qs < 2 ^ (bits * qs.length) := by
  induction qs with
  | nil => simp [packBase]
  | cons q qs ih =>
    have hq0 : q < 2 ^ bits := hq q (by simp)
    have hP : packBase bits qs < 2 ^ (bits * qs.length) :=
      ih fun a ha => hq a (by simp [ha])
    calc q + 2 ^ bits * packBase bits qs
        < 2 ^ bits + 2 ^ bits * packBase bits qs := by omega
      _ = 2 ^ bits * (packBase bits qs + 1) := by ring
      _ ≤ 2 ^ bits * 2 ^ (bits * qs.length) := Nat.mul_le_mul_left _ (by omega)
      _ = 2 ^ (bits * (q :: qs).length) := by
          rw [← pow_add]; congr 1; simp [List.length_cons]; ring

/-- Positional decomposition of the packing sum: below field `i` the value is
smaller than the field's weight `2^(bits*i)`. -/
theorem packBase_decomp (bits : ℕ) (qs : List ℕ) (i : ℕ) (hi : i < qs.length)
    (hq : ∀ q ∈ qs, q < 2 ^ bits) :
    ∃ lo hi', packBase bits qs =
        lo + qs.getD i 0 * 2 ^ (bits * i) + hi' * 2 ^ (bits * (i + 1)) ∧
      lo < 2 ^ (bits * i) := by
  induction qs generalizing i with
  | nil => simp at hi
  | cons q qs ih =>
    cases i with
    | zero =>
      refine ⟨0, packBase bits qs, ?_, by simp⟩
      simp [packBase, pow_succ]
      ring
    | succ i =>
      obtain ⟨lo, hi', hdec, hlo⟩ :=
        ih i (by simpa using hi) (fun a ha => hq a (by simp [ha]))
      have hq0 : q < 2 ^ bits := hq q (by simp)
      refine ⟨q + 2 ^ bits * lo, hi', ?_, ?_⟩
      · have e1 : 2 ^ (bits * (i + 1)) = 2 ^ bits * 2 ^ (bits * i) := by
          rw [← pow_add]; congr 1; ring
        have e2 : 2 ^ (bits * (i + 2)) = 2 ^ bits * 2 ^ (bits * (i + 1)) := by
          rw [← pow_add]; congr 1; ring
        show q + 2 ^ bits * packBase bits qs = _
        rw [hdec, List.getD_cons_succ]
        calc q + 2 ^ bits *
              (lo + qs.getD i 0 * 2 ^ (bits * i) + hi' * 2 ^ (bits * (i + 1)))
            = q + 2 ^ bits * lo +
                qs.getD i 0 * (2 ^ bits * 2 ^ (bits * i)) +
                hi' * (2 ^ bits * 2 ^ (bits * (i + 1))) := by ring
          _ = q + 2 ^ bits * lo + qs.getD i 0 * 2 ^ (bits * (i + 1)) +
                hi' * 2 ^ (bits * (i + 1 + 1)) := by rw [← e1, ← e2]
      · have e1 : 2 ^ (bits * (i + 1)) = 2 ^ bits * 2 ^ (bits * i) := by
          rw [← pow_add]; congr 1; ring
        have h1 : q + 2 ^ bits * lo + 1 ≤ 2 ^ bits * (lo + 1) := by
          rw [Nat.mul_add, Nat.mul_one]; omega
        have h2 : 2 ^ bits * (lo + 1) ≤ 2 ^ bits * 2 ^ (bits * i) :=
          Nat.mul_le_mul_left _ (by omega)
        omega

/-- The shift-mask pair at `start = bits * i` recovers field `i` from a
positionally decomposed word. -/
theorem unpackField_extract (bits i lo q hi : ℕ) (hle : bits * (i + 1) ≤ 32)
    (hlo : lo < 2 ^ (bits * i)) (hq : q < 2 ^ bits) :
    unpackField bits (lo + q * 2 ^ (bits * i) + hi * 2 ^ (bits * (i + 1)))
      (bits * i) = q := by
  have hmul : bits * (i + 1) = bits * i + bits := by ring
  have e₁ : bits * i + (32 - (bits * i + bits)) = 32 - bits := by omega
  have e₂ : bits * (i + 1) + (32 - (bits * i + bits)) = 32 := by omega
  have hshift :
      (lo + q * 2 ^ (bits * i) + hi * 2 ^ (bits * (i + 1))) *
        2 ^ (32 - (bits * i + bits)) =
      lo * 2 ^ (32 - (bits * i + bits)) + q * 2 ^ (32 - bits) + hi * 2 ^ 32 := by
    rw [Nat.add_mul, Nat.add_mul, Nat.mul_assoc, Nat.mul_assoc, ← pow_add,
      ← pow_add, e₁, e₂]
  have hlo' : lo * 2 ^ (32 - (bits * i + bits)) < 2 ^ (32 - bits) := by
    calc lo * 2 ^ (32 - (bits * i + bits))
        < 2 ^ (bits * i) * 2 ^ (32 - (bits * i + bits)) :=
          mul_lt_mul_of_pos_right hlo (pow_pos (by norm_num) _)
      _ = 2 ^ (32 - bits) := by rw [← pow_add, e₁]
  have hk : 2 ^ bits * 2 ^ (32 - bits) = 2 ^ 32 := by
    rw [← pow_add]; congr 1; omega
  have hbound : lo * 2 ^ (32 - (bits * i + bits)) + q * 2 ^ (32 - bits) <
      2 ^ 32 := by
    have hq' : q * 2 ^ (32 - bits) ≤ (2 ^ bits - 1) * 2 ^ (32 - bits) :=
      Nat.mul_le_mul_right _ (by omega)
    have hsub : (2 ^ bits - 1) * 2 ^ (32 - bits) =
        2 ^ 32 - 2 ^ (32 - bits) := by
      rw [Nat.sub_mul, Nat.one_mul, hk]
    have hle32 : 2 ^ (32 - bits) ≤ 2 ^ 32 := by
      have h1 : (2 : ℕ) ^ (32 - bits) ≤ 2 ^ bits * 2 ^ (32 - bits) :=
        Nat.le_mul_of_pos_left _ (pow_pos (by norm_num) _)
      omega
    omega
  unfold unpackField
  rw [hshift, Nat.add_mul_mod_self_right, Nat.mod_eq_of_lt hbound,
    Nat.add_mul_div_right _ _ (pow_pos (by norm_num) _),
    Nat.div_eq_of_lt hlo', Nat.zero_add]

/-- Pack-then-unpack restores a full list of in-range fields, for any field
width dividing 32. -/
theorem unpack_packWord (bits n : ℕ) (hpos : 0 < bits) (hbn : bits * n = 32)
    (hparts : 31 / bits + 1 = n) (qs : List ℕ) (hlen : qs.length = n)
    (hq : ∀ q ∈ qs, q < 2 ^ bits) :
    unpackWord bits (packWord bits qs) = qs := by
  have hlt : packBase bits qs < 2 ^ 32 := by
    have h := packBase_lt bits qs hq
    rwa [hlen, hbn] at h
  have hpw : packWord bits qs = packBase bits qs := Nat.mod_eq_of_lt hlt
  unfold unpackWord
  rw [hparts, hpw]
  refine List.ext_getElem (by simp [hlen]) ?_
  intro i h1 h2
  simp only [List.getElem_map, List.getElem_range]
  obtain ⟨lo, hi', hdec, hlo⟩ := packBase_decomp bits qs i h2 hq
  have hgd : qs.getD i 0 = qs[i] := List.getD_eq_getElem qs 0 h2
  have hmem : qs.getD i 0 ∈ qs := by
    rw [hgd]; exact List.getElem_mem h2
  have hle : bits * (i + 1) ≤ 32 := by
    have hin : i + 1 ≤ n := by
      have : i < n := by simpa [hlen] using h2
      omega
    calc bits * (i + 1) ≤ bits * n := Nat.mul_le_mul_left _ hin
      _ = 32 := hbn
  rw [hdec, unpackField_extract bits i lo (qs.getD i 0) hi' hle hlo (hq _ hmem),
    hgd]

/-- C5: for `bits ∈ {2,4,8}`, packing a sequence of `32/bits` quantization
levels, each in `[0, 2^bits - 1]`, into one 32-bit word as
`sum(q_i * 2^(bits*i))` (fields low-to-high) and then unpacking that word
with the dequantize shift-mask sequence restores exactly the original
values in their original order. -/
theorem pack_unpack_roundtrip (bits : ℕ) (qs : List ℕ)
    (hb : bits = 2 ∨ bits = 4 ∨ bits = 8) (hlen : qs.length = 32 / bits)
    (hq : ∀ q ∈ qs, q < 2 ^ bits) :
    unpackWord bits (packWord bits qs) = qs := by
  rcases hb with hb | hb | hb <;> subst hb
  · exact unpack_packWord 2 16 (by norm_num) (by norm_num) (by norm_num) qs
      (by simpa using hlen) hq
  · exact unpack_packWord 4 8 (by norm_num) (by norm_num) (by norm_num) qs
      (by simpa using hlen) hq
  · exact unpack_packWord 8 4 (by norm_num) (by norm_num) (by norm_num) qs
      (by simpa using hlen) hq

/-- C5 witness: a concrete word of eight 4-bit fields. -/
theorem pack_unpack_roundtrip_app :
    unpackWord 4 (packWord 4 [1, 2, 3, 4, 5, 6, 7, 8]) =
      [1, 2, 3, 4, 5, 6, 7, 8] :=
  pack_unpack_roundtrip 4 [1, 2, 3, 4, 5, 6, 7, 8] (by norm_num) (by decide)
    (by decide)

/-! ### Behaviour of the Custom::vjp selection loop (C8) -/

/-- With `argnums` exhausted the loop pushes nothing. -/
theorem vjpSelect_nil {α : Type} (vs : List α) : ∀ i, vjpSelect i vs [] = [] := by
  induction vs with
  | nil => intro i; rfl
  | cons v vs ih => intro i; exact ih (i + 1)

/-- A head entry already below the scan counter never matches again. -/
theorem vjpSelect_stuck {α : Type} (j : ℕ) (js : List ℕ) (vs : List α) :
    ∀ i, j < i → vjpSelect i vs (j :: js) = [] := by
  induction vs with
  | nil => intro i _; rfl
  | cons v vs ih =>
    intro i h
    show (if i = j then v :: vjpSelect (i + 1) vs js
      else vjpSelect (i + 1) vs (j :: js)) = []
    rw [if_neg (by omega)]
    exact ih (i + 1) (by omega)

/-- A head entry beyond the remaining gradients never matches. -/
theorem vjpSelect_overshoot {α : Type} (j : ℕ) (js : List ℕ) (vs : List α) :
    ∀ i, i + vs.length ≤ j → vjpSelect i vs (j :: js) = [] := by
  induction vs with
  | nil => intro i _; rfl
  | cons v vs ih =>
    intro i h
    simp only [List.length_cons] at h
    show (if i = j then v :: vjpSelect (i + 1) vs js
      else vjpSelect (i + 1) vs (j :: js)) = []
    rw [if_neg (by omega)]
    exact ih (i + 1) (by omega)

/-- `getD` after a `drop` reads the shifted position. -/
theorem vjp_getD_drop {α : Type} (d : α) (l : List α) :
    ∀ n m, (l.drop n).getD m d = l.getD (n + m) d := by
  induction l with
  | nil => intro n m; cases n <;> simp [List.getD]
  | cons a l ih =>
    intro n m
    cases n with
    | zero => simp
    | succ n =>
      rw [List.drop_succ_cons, ih n m]
      show l.getD (n + m) d = (a :: l).getD (n + 1 + m) d
      rw [Nat.add_right_comm, List.getD_cons_succ]

/-- The scan starting at counter `i` with an in-range head `j` matches `j`
and continues past it. -/
theorem vjpSelect_advance {α : Type} (d : α) (j : ℕ) (js : List ℕ) :
    ∀ (vs : List α) (i), i ≤ j → j < i + vs.length →
      vjpSelect i vs (j :: js) =
        vs.getD (j - i) d :: vjpSelect (j + 1) (vs.drop (j - i + 1)) js := by
  intro vs
  induction vs with
  | nil => intro i h1 h2; simp at h2; omega
  | cons v vs ih =>
    intro i h1 h2
    show (if i = j then v :: vjpSelect (i + 1) vs js
      else vjpSelect (i + 1) vs (j :: js)) = _
    by_cases hij : i = j
    · subst hij
      rw [if_pos rfl]
      simp
    · rw [if_neg hij]
      simp only [List.length_cons] at h2
      rw [ih (i + 1) (by omega) (by omega)]
      have hk : j - i = (j - (i + 1)) + 1 := by omega
      rw [hk, List.getD_cons_succ, List.drop_succ_cons]

/-- Strictly ascending in-range `argnums` are matched one by one, each
selecting exactly the gradient at its index. -/
theorem vjpSelect_sorted {α : Type} (d : α) :
    ∀ (js : List ℕ) (i : ℕ) (vs : List α),
      List.Pairwise (· < ·) js → (∀ a ∈ js, i ≤ a ∧ a < i + vs.length) →
      vjpSelect i vs js = js.map fun a => vs.getD (a - i) d := by
  intro js
  induction js with
  | nil => intro i vs _ _; rw [vjpSelect_nil]; rfl
  | cons j js ih =>
    intro i vs hp hr
    obtain ⟨hji, hjr⟩ := hr j (by simp)
    obtain ⟨hall, hp'⟩ := List.pairwise_cons.mp hp
    rw [vjpSelect_advance d j js vs i hji hjr]
    rw [ih (j + 1) (vs.drop (j - i + 1)) hp' ?_]
    · simp only [List.map_cons, List.cons.injEq, true_and, eq_self_iff_true]
      refine List.map_congr_left ?_
      intro a ha
      rw [vjp_getD_drop]
      congr 1
      have := hall a ha
      have := (hr a (by simp [ha])).2
      omega
    · intro a ha
      have h1 := hall a ha
      have h2 := (hr a (by simp [ha])).2
      have h3 : j - i + 1 ≤ vs.length := by omega
      refine ⟨by omega, ?_⟩
      rw [List.length_drop]
      omega

/-- Once some entry sits strictly below the scan counter, at least one
`argnums` entry is never matched. -/
theorem vjpSelect_blocked {α : Type} :
    ∀ (js : List ℕ) (i : ℕ) (vs : List α),
      (∃ a ∈ js, a < i) → (vjpSelect i vs js).length < js.length := by
  intro js
  induction js with
  | nil => intro i vs h; simp at h
  | cons j js ih =>
    intro i vs ⟨a, ha, hai⟩
    by_cases hj : j < i
    · rw [vjpSelect_stuck j js vs i hj]; simp
    · have haj : a ∈ js := by
        rcases List.mem_cons.mp ha with h | h
        · omega
        · exact h
      by_cases hran : j < i + vs.length
      · rcases vs with _ | ⟨v, vs⟩
        · simp at hran; omega
        · rw [vjpSelect_advance v j js _ i (by omega) hran]
          have := ih (j + 1) ((v :: vs).drop (j - i + 1)) ⟨a, haj, by omega⟩
          simp only [List.length_cons]
          omega
      · rw [vjpSelect_overshoot j js vs i (by omega)]
        simp

/-- If `argnums` is not strictly ascending, the first out-of-order entry
blocks every later one, so fewer gradients than entries come back. -/
theorem vjpSelect_unsorted {α : Type} :
    ∀ (js : List ℕ) (i : ℕ) (vs : List α),
      (∀ a ∈ js, i ≤ a ∧ a < i + vs.length) → ¬ List.Pairwise (· < ·) js →
      (vjpSelect i vs js).length < js.length := by
  intro js
  induction js with
  | nil => intro i vs _ hp; exact absurd List.Pairwise.nil hp
  | cons j js ih =>
    intro i vs hr hp
    obtain ⟨hji, hjr⟩ := hr j (by simp)
    rcases vs with _ | ⟨v, vs⟩
    · simp at hjr; omega
    · rw [vjpSelect_advance v j js _ i hji hjr]
      simp only [List.length_cons]
      by_cases hall : ∀ a ∈ js, j < a
      · have hp' : ¬ List.Pairwise (· < ·) js := fun hpj =>
          hp (List.pairwise_cons.mpr ⟨hall, hpj⟩)
        have hlen : j - i + 1 ≤ (v :: vs).length := by
          simp only [List.length_cons] at hjr ⊢; omega
        have := ih (j + 1) ((v :: vs).drop (j - i + 1)) ?_ hp'
        · omega
        · intro a ha
          have h1 := hall a ha
          have h2 := (hr a (by simp [ha])).2
          refine ⟨by omega, ?_⟩
          rw [List.length_drop]
          simp only [List.length_cons] at h2 ⊢
          omega
      · push_neg at hall
        obtain ⟨a, ha, haj⟩ := hall
        have := vjpSelect_blocked js (j + 1) ((v :: vs).drop (j - i + 1))
          ⟨a, ha, by omega⟩
        omega

/-- C8: for every gradient list of the fallback and every `argnums` sorted
in strictly increasing order (within range), `Custom::vjp` returns exactly
the gradients at those input indices, in that order; if `argnums` is not
sorted ascending, entries after an out-of-order one are silently skipped
and fewer gradients than `argnums` entries are returned. -/
theorem custom_vjp_argnums {α : Type} (d : α) (vjps : List α)
    (argnums : List ℕ) (hr : ∀ a ∈ argnums, a < vjps.length) :
    (List.Pairwise (· < ·) argnums →
      customVjp vjps argnums = argnums.map fun a => vjps.getD a d) ∧
    (¬ List.Pairwise (· < ·) argnums →
      (customVjp vjps argnums).length < argnums.length) := by
  constructor
  · intro hp
    unfold customVjp
    rw [vjpSelect_sorted d argnums 0 vjps hp
      (fun a ha => ⟨Nat.zero_le _, by simpa using hr a ha⟩)]
    simp
  · intro hp
    exact vjpSelect_unsorted argnums 0 vjps
      (fun a ha => ⟨Nat.zero_le _, by simpa using hr a ha⟩) hp

/-- C8 witness: selecting gradients 0 and 2 of three. -/
theorem custom_vjp_argnums_app :
    customVjp [(10 : ℚ), 20, 30] [0, 2] = [10, 30] :=
  ((custom_vjp_argnums 0 [(10 : ℚ), 20, 30] [0, 2] (by decide)).1
    (by decide)).trans (by decide)

/-! ### RoPE forward/inverse pair (C2) -/

/-- Traditional layout, rotated region: feature `d` is component `d % 2` of
the rotated pair `(x[2⌊d/2⌋], x[2⌊d/2⌋+1])`. -/
theorem rope_eval_trad (cosf sinf : ℚ → ℚ) (freq : ℕ → ℚ) (offset : ℤ)
    (scale : ℚ) (dims : ℕ) (fwd : Bool) (x : ℕ → ℕ → ℕ → ℚ) (b s d : ℕ)
    (h : d < dims) :
    rope cosf sinf freq offset scale dims true fwd x b s d =
      if d % 2 = 0 then
        (ropeRot fwd (x b s (2 * (d / 2))) (x b s (2 * (d / 2) + 1))
          (cosf (ropeTheta freq offset scale s (d / 2)))
          (sinf (ropeTheta freq offset scale s (d / 2)))).1
      else
        (ropeRot fwd (x b s (2 * (d / 2))) (x b s (2 * (d / 2) + 1))
          (cosf (ropeTheta freq offset scale s (d / 2)))
          (sinf (ropeTheta freq offset scale s (d / 2)))).2 := by
  simp [rope, h]

/-- Traditional layout: trailing features pass through. -/
theorem rope_eval_trad_pass (cosf sinf : ℚ → ℚ) (freq : ℕ → ℚ) (offset : ℤ)
    (scale : ℚ) (dims : ℕ) (fwd : Bool) (x : ℕ → ℕ → ℕ → ℚ) (b s d : ℕ)
    (h : dims ≤ d) :
    rope cosf sinf freq offset scale dims true fwd x b s d = x b s d := by
  simp [rope, Nat.not_lt.mpr h]

/-- Split-half layout, lower half: component 1 of the rotated pair
`(x[d], x[d + dims/2])`. -/
theorem rope_eval_nt_lo (cosf sinf : ℚ → ℚ) (freq : ℕ → ℚ) (offset : ℤ)
    (scale : ℚ) (dims : ℕ) (fwd : Bool) (x : ℕ → ℕ → ℕ → ℚ) (b s d : ℕ)
    (h : d < dims / 2) :
    rope cosf sinf freq offset scale dims false fwd x b s d =
      (ropeRot fwd (x b s d) (x b s (d + dims / 2))
        (cosf (ropeTheta freq offset scale s d))
        (sinf (ropeTheta freq offset scale s d))).1 := by
  simp [rope, h]

/-- Split-half layout, upper half: component 2 of the rotated pair
`(x[d - dims/2], x[d])`. -/
theorem rope_eval_nt_hi (cosf sinf : ℚ → ℚ) (freq : ℕ → ℚ) (offset : ℤ)
    (scale : ℚ) (dims : ℕ) (fwd : Bool) (x : ℕ → ℕ → ℕ → ℚ) (b s d : ℕ)
    (h1 : dims / 2 ≤ d) (h2 : d < dims) :
    rope cosf sinf freq offset scale dims false fwd x b s d =
      (ropeRot fwd (x b s (d - dims / 2)) (x b s d)
        (cosf (ropeTheta freq offset scale s (d - dims / 2)))
        (sinf (ropeTheta freq offset scale s (d - dims / 2)))).2 := by
  simp [rope, Nat.not_lt.mpr h1, h2]

/-- Split-half layout: trailing features pass through. -/
theorem rope_eval_nt_pass (cosf sinf : ℚ → ℚ) (freq : ℕ → ℚ) (offset : ℤ)
    (scale : ℚ) (dims : ℕ) (fwd : Bool) (x : ℕ → ℕ → ℕ → ℚ) (b s d : ℕ)
    (h : dims ≤ d) :
    rope cosf sinf freq offset scale dims false fwd x b s d = x b s d := by
  have h2 : ¬ d < dims / 2 := by
    have := Nat.div_le_self dims 2
    omega
  simp [rope, h2, Nat.not_lt.mpr h]

/-- C2: for every tensor and every RoPE parameter set with even `dims`,
applying rope forward and then rope with the same parameters backward
recovers the input exactly (in exact arithmetic, given only
`cos² + sin² = 1` for the shared angle table), at every element — both
layouts, unrotated trailing features included. -/
theorem rope_forward_inverse (cosf sinf : ℚ → ℚ) (freq : ℕ → ℚ) (offset : ℤ)
    (scale : ℚ) (dims : ℕ) (traditional : Bool) (x : ℕ → ℕ → ℕ → ℚ)
    (b s d : ℕ) (heven : dims % 2 = 0)
    (hpy : ∀ θ, cosf θ ^ 2 + sinf θ ^ 2 = 1) :
    rope cosf sinf freq offset scale dims traditional false
      (rope cosf sinf freq offset scale dims traditional true x) b s d =
      x b s d := by
  cases traditional with
  | true =>
    by_cases hd : d < dims
    · rw [rope_eval_trad cosf sinf freq offset scale dims false _ b s d hd]
      have h1 : 2 * (d / 2) < dims := by omega
      have h2 : 2 * (d / 2) + 1 < dims := by omega
      rw [rope_eval_trad cosf sinf freq offset scale dims true x b s _ h1,
        rope_eval_trad cosf sinf freq offset scale dims true x b s _ h2]
      have e1 : 2 * (d / 2) % 2 = 0 := by omega
      have e2 : 2 * (d / 2) / 2 = d / 2 := by omega
      have e4 : (2 * (d / 2) + 1) / 2 = d / 2 := by omega
      rw [if_pos e1, if_neg (show ¬ (2 * (d / 2) + 1) % 2 = 0 by omega), e2, e4]
      by_cases hp : d % 2 = 0
      · rw [if_pos hp]
        have hdx : 2 * (d / 2) = d := by omega
        rw [hdx]
        simp [ropeRot]
        linear_combination (x b s d) * hpy (ropeTheta freq offset scale s (d / 2))
      · rw [if_neg hp]
        have hdx : 2 * (d / 2) + 1 = d := by omega
        rw [hdx]
        simp [ropeRot]
        linear_combination (x b s d) * hpy (ropeTheta freq offset scale s (d / 2))
    · have hd' : dims ≤ d := by omega
      rw [rope_eval_trad_pass cosf sinf freq offset scale dims false _ b s d hd',
        rope_eval_trad_pass cosf sinf freq offset scale dims true x b s d hd']
  | false =>
    by_cases h1 : d < dims / 2
    · rw [rope_eval_nt_lo cosf sinf freq offset scale dims false _ b s d h1]
      have hd2 : dims / 2 ≤ d + dims / 2 := by omega
      have hd3 : d + dims / 2 < dims := by omega
      rw [rope_eval_nt_lo cosf sinf freq offset scale dims true x b s d h1,
        rope_eval_nt_hi cosf sinf freq offset scale dims true x b s _ hd2 hd3]
      have e : d + dims / 2 - dims / 2 = d := by omega
      rw [e]
      simp [ropeRot]
      linear_combination (x b s d) * hpy (ropeTheta freq offset scale s d)
    · by_cases h2 : d < dims
      · rw [rope_eval_nt_hi cosf sinf freq offset scale dims false _ b s d
          (by omega) h2]
        have hlo : d - dims / 2 < dims / 2 := by omega
        rw [rope_eval_nt_lo cosf sinf freq offset scale dims true x b s _ hlo,
          rope_eval_nt_hi cosf sinf freq offset scale dims true x b s d
            (by omega) h2]
        have e : d - dims / 2 + dims / 2 = d := by omega
        rw [e]
        simp [ropeRot]
        linear_combination (x b s d) * hpy
          (ropeTheta freq offset scale s (d - dims / 2))
      · rw [rope_eval_nt_pass cosf sinf freq offset scale dims false _ b s d
          (by omega),
          rope_eval_nt_pass cosf sinf freq offset scale dims true x b s d
            (by omega)]

/-- C2 witness: a concrete Pythagorean table (`cos = 3/5`, `sin = 4/5`),
`dims = 2`, traditional layout. -/
theorem rope_forward_inverse_app :
    rope (fun _ => 3 / 5) (fun _ => 4 / 5) (fun _ => 1) 0 1 2 true false
        (rope (fun _ => 3 / 5) (fun _ => 4 / 5) (fun _ => 1) 0 1 2 true true
          fun b s d => (b : ℚ) + s + d) 0 0 0 =
      (fun b s d => (b : ℚ) + s + d) 0 0 0 :=
  rope_forward_inverse (fun _ => 3 / 5) (fun _ => 4 / 5) (fun _ => 1) 0 1 2
    true (fun b s d => (b : ℚ) + s + d) 0 0 0 (by decide)
    (fun θ => by norm_num)

end MlxFast
